import Mathlib

/-!
Verification of a generic binary min-heap container (array-backed, with a
caller-supplied strict ordering predicate).  The embedding models the backing
slice as a `List α`, element access as total indexing with a default value
(Go types always have a zero value, modelled by `Inhabited`), and the two
internal sift loops (`down`, `up`) as fuel-indexed structural recursions whose
fuel is provably sufficient, so that every operation is executable.
-/

set_option maxHeartbeats 1000000

namespace HeapSpec

variable {α : Type} [Inhabited α]

/-- Total list indexing with the default element, modelling in-bounds slice
indexing (all accesses performed by the code are in bounds). -/
def nth (d : List α) (i : Nat) : α := d.getD i default

@[simp] theorem nth_nil (i : Nat) : nth ([] : List α) i = default := rfl

@[simp] theorem nth_cons_zero (a : α) (t : List α) : nth (a :: t) 0 = a := rfl

@[simp] theorem nth_cons_succ (a : α) (t : List α) (i : Nat) :
    nth (a :: t) (i + 1) = nth t i := rfl

theorem nth_eq_getElem (d : List α) (i : Nat) (h : i < d.length) :
    nth d i = d.get ⟨i, h⟩ := by
  simp [nth, List.getElem?_eq_getElem h]

theorem nth_eq_getElem?_getD (d : List α) (i : Nat) :
    nth d i = (d[i]?).getD default := by
  simp [nth]

theorem nth_default (d : List α) (i : Nat) (h : d.length ≤ i) :
    nth d i = default := by
  simp [nth, List.getElem?_eq_none h]

theorem nth_set_self (d : List α) (i : Nat) (x : α) (h : i < d.length) :
    nth (d.set i x) i = x := by
  simp [nth, List.getElem?_set_self h]

theorem nth_set_ne (d : List α) (i q : Nat) (x : α) (h : i ≠ q) :
    nth (d.set i x) q = nth d q := by
  simp [nth, List.getElem?_set_ne h]

theorem set_nth_self (d : List α) (i : Nat) (h : i < d.length) :
    d.set i (nth d i) = d := by
  apply List.ext_getElem?
  intro n
  by_cases hn : i = n
  · subst hn
    rw [List.getElem?_set_self h, nth_eq_getElem d i h]
    simp [List.getElem?_eq_getElem h]
  · rw [List.getElem?_set_ne hn]

theorem nth_take (d : List α) (m q : Nat) (h : q < m) :
    nth (d.take m) q = nth d q := by
  simp [nth, List.getElem?_take_of_lt h]

theorem nth_append_left (d e : List α) (q : Nat) (h : q < d.length) :
    nth (d ++ e) q = nth d q := by
  simp [nth, List.getElem?_append_left h]

theorem nth_append_last (d : List α) (x : α) :
    nth (d ++ [x]) d.length = x := by
  simp [nth, List.getElem?_concat_length]

/-- Swap the elements at positions `i` and `j`, as done by the parallel
assignment in the Go sift loops. -/
def swap (d : List α) (i j : Nat) : List α :=
  (d.set i (nth d j)).set j (nth d i)

@[simp] theorem swap_length (d : List α) (i j : Nat) :
    (swap d i j).length = d.length := by
  simp [swap]

theorem nth_swap_left (d : List α) (i j : Nat) (hi : i < d.length)
    (hj : j < d.length) : nth (swap d i j) i = nth d j := by
  by_cases h : j = i
  · subst h; rw [swap, nth_set_self _ _ _ (by simpa using hi)]
  · rw [swap, nth_set_ne _ _ _ _ h, nth_set_self _ _ _ hi]

theorem nth_swap_right (d : List α) (i j : Nat) (hj : j < d.length) :
    nth (swap d i j) j = nth d i := by
  rw [swap, nth_set_self _ _ _ (by simpa using hj)]

theorem nth_swap_other (d : List α) (i j q : Nat) (hqi : q ≠ i) (hqj : q ≠ j) :
    nth (swap d i j) q = nth d q := by
  rw [swap, nth_set_ne _ _ _ _ (fun h => hqj h.symm),
    nth_set_ne _ _ _ _ (fun h => hqi h.symm)]

/-- Replacing position `k` of a list and re-adjoining the displaced value is a
permutation of adjoining the new value to the original list. -/
theorem perm_set_cons (x : α) : ∀ (t : List α) (k : Nat), k < t.length →
    (nth t k :: t.set k x).Perm (x :: t) := by
  intro t
  induction t with
  | nil => intro k hk; simp at hk
  | cons b t2 ih =>
    intro k hk
    cases k with
    | zero =>
      simpa using List.Perm.swap x b t2
    | succ k =>
      have hk2 : k < t2.length := by simpa using hk
      have s1 : (nth (b :: t2) (k+1) :: (b :: t2).set (k+1) x).Perm
          (b :: nth t2 k :: t2.set k x) := by
        simpa using List.Perm.swap b (nth t2 k) (t2.set k x)
      exact s1.trans ((List.Perm.cons b (ih k hk2)).trans (List.Perm.swap x b t2))

theorem swap_comm (d : List α) (i j : Nat) : swap d i j = swap d j i := by
  by_cases h : i = j
  · subst h; rfl
  · rw [swap, swap, List.set_comm _ _ _ h]

theorem swap_cons_succ (a : α) (t : List α) (i j : Nat) :
    swap (a :: t) (i + 1) (j + 1) = a :: swap t i j := by
  simp [swap, List.set]

theorem swap_zero_succ (a : α) (t : List α) (j : Nat) :
    swap (a :: t) 0 (j + 1) = nth t j :: t.set j a := by
  simp [swap, List.set]

theorem swap_perm : ∀ (d : List α) (i j : Nat), i < d.length → j < d.length →
    (swap d i j).Perm d := by
  intro d
  induction d with
  | nil => intro i j hi _; simp at hi
  | cons a t ih =>
    intro i j hi hj
    cases i with
    | zero =>
      cases j with
      | zero =>
        rw [swap, set_nth_self _ _ hi, set_nth_self _ _ hi]
      | succ j =>
        have hjt : j < t.length := by simpa using hj
        rw [swap_zero_succ]
        exact perm_set_cons a t j hjt
    | succ i =>
      cases j with
      | zero =>
        have hit : i < t.length := by simpa using hi
        rw [swap_comm, swap_zero_succ]
        exact perm_set_cons a t i hit
      | succ j =>
        rw [swap_cons_succ]
        exact List.Perm.cons a (ih i j (by simpa using hi) (by simpa using hj))

/-! ### The sift loops of the source (`down` and `up`)

The Go loops terminate because the working index strictly increases
(`down`) resp. strictly decreases (`up`); they are modelled as structural
recursions over an explicit fuel, invoked with provably sufficient fuel
(`d.length` resp. `i`), so that they also compute by kernel reduction. -/

/-- Index of the child selected by the `down` loop: the right child `2*i+2`
when it is in range and compares less than the left child, else the left
child `2*i+1`. -/
def pickChild (less : α → α → Bool) (d : List α) (i : Nat) : Nat :=
  if 2*i+2 < d.length && less (nth d (2*i+2)) (nth d (2*i+1)) then 2*i+2
  else 2*i+1

theorem pickChild_gt (less : α → α → Bool) (d : List α) (i : Nat) :
    i < pickChild less d i := by
  unfold pickChild; split <;> omega

theorem pickChild_lt (less : α → α → Bool) (d : List α) (i : Nat)
    (h : 2*i+1 < d.length) : pickChild less d i < d.length := by
  unfold pickChild; split <;> [skip; exact h]
  next hc => exact (Bool.and_eq_true_iff.mp hc).1 |> of_decide_eq_true

theorem pickChild_child (less : α → α → Bool) (d : List α) (i : Nat) :
    pickChild less d i = 2*i+1 ∨ pickChild less d i = 2*i+2 := by
  unfold pickChild; split <;> simp

/-- One fuel-indexed unfolding of the `down` loop of the source.  Returns the
new backing list together with the final value of the working index `i`
(the source returns `i > i0`, recovered as a comparison with the initial
index). -/
def downGas (less : α → α → Bool) : Nat → List α → Nat → List α × Nat
  | 0, d, i => (d, i)
  | Nat.succ f, d, i =>
    if 2*i+1 < d.length then
      if less (nth d (pickChild less d i)) (nth d i) then
        downGas less f (swap d i (pickChild less d i)) (pickChild less d i)
      else (d, i)
    else (d, i)

/-- The `down` sift of the source: run the loop with fuel `d.length`, which
is always sufficient because the working index strictly increases and stays
below `d.length`. -/
def down (less : α → α → Bool) (d : List α) (i : Nat) : List α × Nat :=
  downGas less d.length d i

/-- One fuel-indexed unfolding of the `up` loop of the source. -/
def upGas (less : α → α → Bool) : Nat → List α → Nat → List α
  | 0, d, _ => d
  | Nat.succ f, d, i =>
    if i = 0 then d
    else if less (nth d i) (nth d ((i-1)/2)) then
      upGas less f (swap d i ((i-1)/2)) ((i-1)/2)
    else d

/-- The `up` sift of the source: run the loop with fuel `i`, which is always
sufficient because the working index strictly decreases towards the root. -/
def up (less : α → α → Bool) (d : List α) (i : Nat) : List α :=
  upGas less i d i

/-- The order-restoration step shared by `Remove`, `Set` and `Fix` in the
source: sift down at `k`, and if the sift-down performed no move (its final
index equals `k`), sift up at `k` instead. -/
def fixAt (less : α → α → Bool) (d : List α) (k : Nat) : List α :=
  if k < (down less d k).2 then (down less d k).1
  else up less (down less d k).1 k

/-! ### The heap container and its public operations -/

/-- The two error kinds of the API (Go panics; the embedding returns them as
values, paired with the — unchanged — heap, since in the source every check
precedes every mutation). -/
inductive HeapErr : Type
  | emptyHeap : HeapErr
  | indexOutOfRange : HeapErr
deriving DecidableEq

/-- The heap container: a backing list and the ordering predicate fixed at
construction. -/
structure Heap (α : Type) where
  data : List α
  less : α → α → Bool

/-- New returns a new empty heap with the given less function. -/
def New (less : α → α → Bool) : Heap α :=
  { data := [], less := less }

/-- The heapify loop of NewFrom: sift down each index from `k-1` down to 0. -/
def heapifyFrom (less : α → α → Bool) : Nat → List α → List α
  | 0, d => d
  | Nat.succ k, d => heapifyFrom less k (down less d k).1

/-- NewFrom returns a new heap with the given less function and initial data,
restoring order bottom-up from the last non-leaf index `n/2 - 1` down to 0. -/
def NewFrom (less : α → α → Bool) (data : List α) : Heap α :=
  { data := heapifyFrom less (data.length / 2) data, less := less }

/-- Len returns the number of elements in the heap. -/
def Heap.Len (h : Heap α) : Nat := h.data.length

/-- Push appends the given element and sifts it up from the last position. -/
def Heap.Push (h : Heap α) (x : α) : Heap α :=
  { h with data := up h.less (h.data ++ [x]) ((h.data ++ [x]).length - 1) }

/-- Pop removes and returns the minimum element: it fails on an empty heap;
otherwise it saves the root, moves the last element to position 0, truncates
by one and sifts the new root down. -/
def Heap.Pop (h : Heap α) : Except HeapErr α × Heap α :=
  if h.data.length = 0 then (Except.error HeapErr.emptyHeap, h)
  else
    (Except.ok (nth h.data 0),
     { h with data := (down h.less
        ((h.data.set 0 (nth h.data (h.data.length - 1))).take
          (h.data.length - 1)) 0).1 })

/-- Peek returns the minimum element without removing it; it fails on an
empty heap. -/
def Heap.Peek (h : Heap α) : Except HeapErr α × Heap α :=
  if h.data.length = 0 then (Except.error HeapErr.emptyHeap, h)
  else (Except.ok (nth h.data 0), h)

/-- Remove removes and returns the element at index i: out-of-range indices
fail; index 0 delegates to Pop; the last index merely truncates; otherwise
the last element moves into slot `i`, the list is truncated, and order is
restored by sift-down, else sift-up. -/
def Heap.Remove (h : Heap α) (i : Int) : Except HeapErr α × Heap α :=
  if i < 0 ∨ (h.data.length : Int) - 1 < i then
    (Except.error HeapErr.indexOutOfRange, h)
  else if i = 0 then h.Pop
  else
    if h.data.length - 1 ≠ i.toNat then
      (Except.ok (nth h.data i.toNat),
       { h with
         data := fixAt h.less
                   ((h.data.set i.toNat (nth h.data (h.data.length - 1))).take
                     (h.data.length - 1)) i.toNat })
    else
      (Except.ok (nth h.data i.toNat),
       { h with data := h.data.take (h.data.length - 1) })

/-- At returns the element at index i; out-of-range indices fail. -/
def Heap.At (h : Heap α) (i : Int) : Except HeapErr α × Heap α :=
  if i < 0 ∨ (h.data.length : Int) ≤ i then
    (Except.error HeapErr.indexOutOfRange, h)
  else (Except.ok (nth h.data i.toNat), h)

/-- Fix re-establishes heap order after the element at index i changed:
sift-down at `i`, and sift-up instead when the sift-down made no move. -/
def Heap.Fix (h : Heap α) (i : Int) : Except HeapErr Unit × Heap α :=
  if i < 0 ∨ (h.data.length : Int) ≤ i then
    (Except.error HeapErr.indexOutOfRange, h)
  else (Except.ok (), { h with data := fixAt h.less h.data i.toNat })

/-- Set replaces the element at index i and then calls Fix (which re-checks
the bounds, exactly as the source does). -/
def Heap.Set (h : Heap α) (i : Int) (x : α) : Except HeapErr Unit × Heap α :=
  if i < 0 ∨ (h.data.length : Int) ≤ i then
    (Except.error HeapErr.indexOutOfRange, h)
  else Heap.Fix { h with data := h.data.set i.toNat x } i

/-! ### The heap-order invariant and ordering assumptions -/

/-- The heap-order condition at child position `c` (with respect to its
parent `(c-1)/2`): the child does not compare strictly less than the parent. -/
def parentOK (less : α → α → Bool) (d : List α) (c : Nat) : Prop :=
  less (nth d c) (nth d ((c-1)/2)) = false

/-- The heap-order invariant: every in-range non-root position respects its
parent. -/
def IsHeap (less : α → α → Bool) (d : List α) : Prop :=
  ∀ c, c < d.length → 0 < c → parentOK less d c

instance (less : α → α → Bool) (d : List α) : Decidable (IsHeap less d) := by
  unfold IsHeap parentOK
  infer_instance

/-- The assumptions on the ordering predicate used by the correctness
arguments: asymmetry and negative transitivity (both hold for any strict
total order such as `<` on integers). -/
structure SWO (less : α → α → Bool) : Prop where
  asymm : ∀ a b, less a b = true → less b a = false
  negTrans : ∀ a b c, less a b = false → less b c = false → less a c = false

theorem SWO.irrefl {less : α → α → Bool} (h : SWO less) (a : α) :
    less a a = false := by
  cases hb : less a a with
  | false => rfl
  | true => have := h.asymm a a hb; rw [hb] at this; exact this

theorem SWO.trans {less : α → α → Bool} (h : SWO less) {a b c : α}
    (hab : less a b = true) (hbc : less b c = true) : less a c = true := by
  cases hac : less a c with
  | true => rfl
  | false =>
    have h1 : less c b = false := h.asymm b c hbc
    have h2 : less a b = false := h.negTrans a c b hac h1
    rw [hab] at h2; exact h2.symm

/-! ### Subtree membership (used only to frame the effect of `down`) -/

/-- Whether position `q` lies in the subtree rooted at position `k` of the
implicit binary tree (i.e. iterating the parent map from `q` reaches `k`). -/
def inSub (k q : Nat) : Bool :=
  if q ≤ k then decide (q = k)
  else inSub k ((q-1)/2)
termination_by q
decreasing_by omega

theorem inSub_self (k : Nat) : inSub k k = true := by
  rw [inSub]; simp

theorem inSub_le (k q : Nat) (h : inSub k q = true) : k ≤ q := by
  rw [inSub] at h
  split at h
  · simp at h; omega
  · omega

theorem inSub_lt_false (k q : Nat) (h : q < k) : inSub k q = false := by
  rw [inSub]
  split
  · simp; omega
  · omega

theorem inSub_step (k q : Nat) (h : k < q) : inSub k q = inSub k ((q-1)/2) := by
  rw [inSub]
  split
  · omega
  · rfl

theorem inSub_trans (i j : Nat) : ∀ q, inSub i j = true → inSub j q = true →
    inSub i q = true := by
  intro q
  induction q using Nat.strong_induction_on with
  | _ q ih =>
    intro hij hjq
    have hij_le := inSub_le i j hij
    have hjq_le := inSub_le j q hjq
    by_cases hq : q = j
    · subst hq; exact hij
    · have hjq2 : j < q := by omega
      rw [inSub_step j q hjq2] at hjq
      rw [inSub_step i q (by omega)]
      exact ih ((q-1)/2) (by omega) hij hjq

theorem inSub_child (k c : Nat) (h : c = 2*k+1 ∨ c = 2*k+2) :
    inSub k c = true := by
  have hck : k < c := by omega
  have hp : (c-1)/2 = k := by omega
  rw [inSub_step k c hck, hp, inSub_self]

theorem inSub_false_of_parent_lt (k c : Nat) (hc : c ≠ k) (hp : (c-1)/2 < k) :
    inSub k c = false := by
  rcases Nat.lt_or_ge c k with h | h
  · exact inSub_lt_false k c h
  · have hck : k < c := by omega
    rw [inSub_step k c hck]
    exact inSub_lt_false k _ hp

/-! ### Properties of the `down` sift loop -/

theorem downGas_length (less : α → α → Bool) :
    ∀ (f : Nat) (d : List α) (i : Nat),
      ((downGas less f d i).1).length = d.length := by
  intro f
  induction f with
  | zero => intro d i; rfl
  | succ f ih =>
    intro d i
    simp only [downGas]
    split
    · split
      · rw [ih]; simp
      · rfl
    · rfl

theorem downGas_perm (less : α → α → Bool) :
    ∀ (f : Nat) (d : List α) (i : Nat), ((downGas less f d i).1).Perm d := by
  intro f
  induction f with
  | zero => intro d i; exact List.Perm.refl d
  | succ f ih =>
    intro d i
    simp only [downGas]
    split
    · split
      · next hn _ =>
        exact (ih _ _).trans
          (swap_perm d i (pickChild less d i) (by omega) (pickChild_lt less d i hn))
      · exact List.Perm.refl d
    · exact List.Perm.refl d

theorem downGas_idx_le (less : α → α → Bool) :
    ∀ (f : Nat) (d : List α) (i : Nat), i ≤ (downGas less f d i).2 := by
  intro f
  induction f with
  | zero => intro d i; exact Nat.le_refl i
  | succ f ih =>
    intro d i
    simp only [downGas]
    split
    · split
      · exact Nat.le_trans (Nat.le_of_lt (pickChild_gt less d i)) (ih _ _)
      · exact Nat.le_refl i
    · exact Nat.le_refl i

theorem downGas_stop (less : α → α → Bool) :
    ∀ (f : Nat) (d : List α) (i : Nat), (downGas less f d i).2 = i →
      (downGas less f d i).1 = d := by
  intro f
  induction f with
  | zero => intro d i _; rfl
  | succ f ih =>
    intro d i
    simp only [downGas]
    split
    · split
      · intro hidx
        have h1 := downGas_idx_le less f (swap d i (pickChild less d i))
          (pickChild less d i)
        have h2 := pickChild_gt less d i
        omega
      · intro _; rfl
    · intro _; rfl

theorem downGas_frame (less : α → α → Bool) :
    ∀ (f : Nat) (d : List α) (i q : Nat), inSub i q = false →
      nth (downGas less f d i).1 q = nth d q := by
  intro f
  induction f with
  | zero => intro d i q _; rfl
  | succ f ih =>
    intro d i q hq
    simp only [downGas]
    split
    · split
      · next hn _ =>
        have hji : inSub i (pickChild less d i) = true :=
          inSub_child i _ (pickChild_child less d i)
        have hqi : q ≠ i := fun h => by rw [h, inSub_self] at hq; cases hq
        have hqj : q ≠ pickChild less d i := fun h => by
          rw [h, hji] at hq; cases hq
        have hjq : inSub (pickChild less d i) q = false := by
          cases hjq2 : inSub (pickChild less d i) q with
          | false => rfl
          | true =>
            rw [inSub_trans i (pickChild less d i) q hji hjq2] at hq
            cases hq
        rw [ih _ _ _ hjq, nth_swap_other d i (pickChild less d i) q hqi hqj]
      · rfl
    · rfl

theorem downGas_moved_val (less : α → α → Bool) :
    ∀ (f : Nat) (d : List α) (i : Nat), i < (downGas less f d i).2 →
      ∃ c, (c = 2*i+1 ∨ c = 2*i+2) ∧ c < d.length ∧
        nth (downGas less f d i).1 i = nth d c := by
  intro f
  induction f with
  | zero => intro d i h; simp [downGas] at h
  | succ f ih =>
    intro d i
    simp only [downGas]
    split
    · split
      · next hn _ =>
        intro _
        refine ⟨pickChild less d i, pickChild_child less d i,
          pickChild_lt less d i hn, ?_⟩
        have hfr : inSub (pickChild less d i) i = false :=
          inSub_lt_false _ _ (pickChild_gt less d i)
        rw [downGas_frame less f _ _ _ hfr,
          nth_swap_left d i (pickChild less d i) (by omega)
            (pickChild_lt less d i hn)]
      · intro h; omega
    · intro h; omega

theorem pick_stop_ok {less : α → α → Bool} (hswo : SWO less) (d : List α)
    (i : Nat) (hstop : less (nth d (pickChild less d i)) (nth d i) = false) :
    ∀ c, (c = 2*i+1 ∨ c = 2*i+2) → c < d.length →
      less (nth d c) (nth d i) = false := by
  intro c hc hcn
  unfold pickChild at hstop
  split at hstop
  · next hsel =>
    have hrl : less (nth d (2*i+2)) (nth d (2*i+1)) = true := by
      cases hrl2 : less (nth d (2*i+2)) (nth d (2*i+1)) with
      | true => rfl
      | false => rw [hrl2, Bool.and_false] at hsel; cases hsel
    rcases hc with hc | hc
    · subst hc
      have h1 : less (nth d (2*i+1)) (nth d (2*i+2)) = false :=
        hswo.asymm _ _ hrl
      exact hswo.negTrans _ _ _ h1 hstop
    · subst hc; exact hstop
  · next hsel =>
    rcases hc with hc | hc
    · subst hc; exact hstop
    · subst hc
      have hrl : less (nth d (2*i+2)) (nth d (2*i+1)) = false := by
        cases hrl2 : less (nth d (2*i+2)) (nth d (2*i+1)) with
        | false => rfl
        | true =>
          rw [hrl2, Bool.and_true] at hsel
          simp [hcn] at hsel
      exact hswo.negTrans _ _ _ hrl hstop

theorem pick_other_ok {less : α → α → Bool} (hswo : SWO less) (d : List α)
    (i : Nat) :
    ∀ c, (c = 2*i+1 ∨ c = 2*i+2) → c < d.length →
      less (nth d c) (nth d (pickChild less d i)) = false := by
  intro c hc hcn
  unfold pickChild
  split
  · next hsel =>
    have hrl : less (nth d (2*i+2)) (nth d (2*i+1)) = true := by
      cases hrl2 : less (nth d (2*i+2)) (nth d (2*i+1)) with
      | true => rfl
      | false => rw [hrl2, Bool.and_false] at hsel; cases hsel
    rcases hc with hc | hc
    · subst hc; exact hswo.asymm _ _ hrl
    · subst hc; exact hswo.irrefl _
  · next hsel =>
    rcases hc with hc | hc
    · subst hc; exact hswo.irrefl _
    · subst hc
      cases hrl2 : less (nth d (2*i+2)) (nth d (2*i+1)) with
      | false => rfl
      | true =>
        rw [hrl2, Bool.and_true] at hsel
        simp [hcn] at hsel

theorem downGas_stop_children {less : α → α → Bool} (hswo : SWO less) :
    ∀ (f : Nat) (d : List α) (i : Nat), d.length ≤ i + f →
      (downGas less f d i).2 = i →
      ∀ c, (c = 2*i+1 ∨ c = 2*i+2) → c < d.length →
        less (nth d c) (nth d i) = false := by
  intro f
  cases f with
  | zero => intro d i hf _ c hc hcn; omega
  | succ f =>
    intro d i _
    simp only [downGas]
    split
    · split
      · next hn _ =>
        intro hidx
        have h1 := downGas_idx_le less f (swap d i (pickChild less d i))
          (pickChild less d i)
        have h2 := pickChild_gt less d i
        omega
      · next hstop =>
        intro _ c hc hcn
        exact pick_stop_ok hswo d i (by simpa using hstop) c hc hcn
    · intro _ c hc hcn; omega

theorem downGas_heap {less : α → α → Bool} (hswo : SWO less) :
    ∀ (f : Nat) (d : List α) (i : Nat), d.length ≤ i + f →
      (∀ c, c < d.length → 0 < c → i < (c-1)/2 → parentOK less d c) →
      ∀ c, c < d.length → 0 < c → i ≤ (c-1)/2 →
        parentOK less (downGas less f d i).1 c := by
  intro f
  induction f with
  | zero => intro d i hf _ c hc hc0 hci; omega
  | succ f ih =>
    intro d i hf H c hc hc0 hci
    simp only [downGas]
    split
    · split
      · next hn hlt =>
        -- the loop swaps d[i] with the selected child j and continues at j
        have hjch := pickChild_child less d i
        have hjn := pickChild_lt less d i hn
        have hij := pickChild_gt less d i
        have hin : i < d.length := by omega
        have hlen1 : (swap d i (pickChild less d i)).length = d.length := by simp
        -- hypothesis of the recursive call: all pairs strictly below j hold
        have H1 : ∀ c2, c2 < (swap d i (pickChild less d i)).length → 0 < c2 →
            pickChild less d i < (c2-1)/2 →
            parentOK less (swap d i (pickChild less d i)) c2 := by
          intro c2 hc2 hc20 hjc2
          have hc2i : c2 ≠ i := by omega
          have hc2j : c2 ≠ pickChild less d i := by omega
          have hp2i : (c2-1)/2 ≠ i := by omega
          have hp2j : (c2-1)/2 ≠ pickChild less d i := by omega
          rw [parentOK, nth_swap_other d i _ c2 hc2i hc2j,
            nth_swap_other d i _ ((c2-1)/2) hp2i hp2j]
          exact H c2 (by omega) hc20 (by omega)
        have hfuel : (swap d i (pickChild less d i)).length ≤
            pickChild less d i + f := by
          rw [hlen1]; omega
        have K := ih (swap d i (pickChild less d i)) (pickChild less d i)
          hfuel H1
        rcases Nat.lt_or_ge ((c-1)/2) (pickChild less d i) with hsmall | hbig
        · -- parent of c lies strictly between i (inclusive) and j
          rcases Nat.eq_or_lt_of_le hci with hpi | hpi
          · -- parent of c is exactly i: c is the selected child or its sibling
            have hcch : c = 2*i+1 ∨ c = 2*i+2 := by omega
            have hRi : nth (downGas less f (swap d i (pickChild less d i))
                (pickChild less d i)).1 i = nth d (pickChild less d i) := by
              rw [downGas_frame less f _ _ i
                  (inSub_lt_false _ _ hij),
                nth_swap_left d i _ hin hjn]
            by_cases hcj : c = pickChild less d i
            · -- c is the selected child j itself
              subst hcj
              rw [parentOK, ← hpi, hRi]
              rcases Nat.eq_or_lt_of_le (downGas_idx_le less f
                  (swap d i (pickChild less d i)) (pickChild less d i))
                with hstop2 | hmove2
              · rw [downGas_stop less f _ _ hstop2.symm,
                  nth_swap_right d i _ hjn]
                exact hswo.asymm _ _ hlt
              · obtain ⟨c2, hc2ch, hc2n, hc2val⟩ :=
                  downGas_moved_val less f _ _ hmove2
                rw [hc2val,
                  nth_swap_other d i _ c2 (by omega) (by omega)]
                have := H c2 (by omega) (by omega) (by omega)
                rw [parentOK] at this
                have hpc2 : (c2-1)/2 = pickChild less d i := by omega
                rw [hpc2] at this
                exact this
            · -- c is the other child of i
              have hfr : inSub (pickChild less d i) c = false := by
                apply inSub_false_of_parent_lt _ _ hcj
                omega
              rw [parentOK, ← hpi, hRi, downGas_frame less f _ _ c hfr,
                nth_swap_other d i _ c (by omega) hcj]
              exact pick_other_ok hswo d i c hcch hc
          · -- i < parent of c < j: both positions are untouched
            have hpj : (c-1)/2 ≠ pickChild less d i := by omega
            have hcnei : c ≠ i := by omega
            have hcnej : c ≠ pickChild less d i := by
              intro hcj
              have : (c-1)/2 = i := by
                rcases hjch with h | h <;> omega
              omega
            have hfrc : inSub (pickChild less d i) c = false := by
              apply inSub_false_of_parent_lt _ _ hcnej
              omega
            have hfrp : inSub (pickChild less d i) ((c-1)/2) = false :=
              inSub_lt_false _ _ (by omega)
            rw [parentOK, downGas_frame less f _ _ c hfrc,
              downGas_frame less f _ _ _ hfrp,
              nth_swap_other d i _ c hcnei hcnej,
              nth_swap_other d i _ ((c-1)/2) (by omega) hpj]
            exact H c hc hc0 (by omega)
        · -- parent of c is at or below j: covered by the recursive call
          exact K c (by omega) hc0 hbig
      · next hstop =>
        rcases Nat.eq_or_lt_of_le hci with hpi | hpi
        · have hcch : c = 2*i+1 ∨ c = 2*i+2 := by omega
          rw [parentOK, ← hpi]
          exact pick_stop_ok hswo d i (by simpa using hstop) c hcch hc
        · exact H c hc hc0 hpi
    · next hn =>
      rcases Nat.eq_or_lt_of_le hci with hpi | hpi
      · have : c = 2*i+1 ∨ c = 2*i+2 := by omega
        omega
      · exact H c hc hc0 hpi

/-! ### Properties of the `up` sift loop -/

theorem upGas_length (less : α → α → Bool) :
    ∀ (f : Nat) (d : List α) (i : Nat),
      (upGas less f d i).length = d.length := by
  intro f
  induction f with
  | zero => intro d i; rfl
  | succ f ih =>
    intro d i
    simp only [upGas]
    split
    · rfl
    · split
      · rw [ih]; simp
      · rfl

theorem upGas_perm (less : α → α → Bool) :
    ∀ (f : Nat) (d : List α) (i : Nat), i < d.length →
      (upGas less f d i).Perm d := by
  intro f
  induction f with
  | zero => intro d i _; exact List.Perm.refl d
  | succ f ih =>
    intro d i hi
    simp only [upGas]
    split
    · exact List.Perm.refl d
    · split
      · next h0 _ =>
        have hp : (i-1)/2 < i := by omega
        exact (ih _ _ (by simp; omega)).trans
          (swap_perm d i ((i-1)/2) hi (by omega))
      · exact List.Perm.refl d

theorem upGas_heap {less : α → α → Bool} (hswo : SWO less) :
    ∀ (f : Nat) (i : Nat) (d : List α), i ≤ f → i < d.length →
      (∀ c, c < d.length → 0 < c → c ≠ i → parentOK less d c) →
      (∀ c, c < d.length → (c = 2*i+1 ∨ c = 2*i+2) → 0 < i →
        less (nth d c) (nth d ((i-1)/2)) = false) →
      IsHeap less (upGas less f d i) := by
  intro f
  induction f with
  | zero =>
    intro i d hif hin U1 _
    have hi0 : i = 0 := by omega
    intro c hc hc0
    exact U1 c (by simpa using hc) hc0 (by omega)
  | succ f ih =>
    intro i d hif hin U1 U2
    simp only [upGas]
    split
    · next hi0 =>
      intro c hc hc0
      exact U1 c (by simpa using hc) hc0 (by omega)
    · next hi0 =>
      split
      · next hlt =>
        -- swap i with its parent p and continue at p
        have hpi : (i-1)/2 < i := by omega
        have hpn : (i-1)/2 < d.length := by omega
        have hich : i = 2*((i-1)/2)+1 ∨ i = 2*((i-1)/2)+2 := by omega
        apply ih ((i-1)/2) (swap d i ((i-1)/2)) (by omega) (by simp; omega)
        · -- all pairs except the one at the parent position hold after the swap
          intro c hc hc0 hcp
          rw [swap_length] at hc
          by_cases hci : c = i
          · rw [hci, parentOK, nth_swap_left d i ((i-1)/2) hin hpn,
              nth_swap_right d i ((i-1)/2) hpn]
            exact hswo.asymm _ _ hlt
          · by_cases hqi : (c-1)/2 = i
            · -- c is a child of the old position i
              rw [parentOK, nth_swap_other d i ((i-1)/2) c hci hcp, hqi,
                nth_swap_left d i ((i-1)/2) hin hpn]
              exact U2 c hc (by omega) (by omega)
            · by_cases hqp : (c-1)/2 = (i-1)/2
              · -- c is the sibling of i
                rw [parentOK, nth_swap_other d i ((i-1)/2) c hci hcp, hqp,
                  nth_swap_right d i ((i-1)/2) hpn]
                cases hcs : less (nth d c) (nth d i) with
                | false => rfl
                | true =>
                  have h1 : less (nth d c) (nth d ((i-1)/2)) = true :=
                    hswo.trans hcs hlt
                  have h2 := U1 c hc hc0 hci
                  rw [parentOK, hqp] at h2
                  rw [h1] at h2; cases h2
              · -- pair untouched by the swap
                rw [parentOK, nth_swap_other d i ((i-1)/2) c hci hcp,
                  nth_swap_other d i ((i-1)/2) ((c-1)/2) hqi hqp]
                exact U1 c hc hc0 hci
        · -- the children of the parent position respect the grandparent
          intro c hc hcch hp0
          rw [swap_length] at hc
          have hgp : ((i-1)/2-1)/2 ≠ i := by omega
          have hgpp : ((i-1)/2-1)/2 ≠ (i-1)/2 := by omega
          rw [nth_swap_other d i ((i-1)/2) _ hgp hgpp]
          by_cases hci : c = i
          · rw [hci, nth_swap_left d i ((i-1)/2) hin hpn]
            have h2 := U1 ((i-1)/2) hpn (by omega) (by omega)
            rw [parentOK] at h2
            exact h2
          · have hcp : c ≠ (i-1)/2 := by omega
            rw [nth_swap_other d i ((i-1)/2) c hci hcp]
            have h2 := U1 c hc (by omega) hci
            rw [parentOK] at h2
            have hqp : (c-1)/2 = (i-1)/2 := by omega
            rw [hqp] at h2
            have h3 := U1 ((i-1)/2) hpn (by omega) (by omega)
            rw [parentOK] at h3
            exact hswo.negTrans _ _ _ h2 h3
      · next hge =>
        intro c hc hc0
        by_cases hci : c = i
        · subst hci
          rw [parentOK]
          simpa using hge
        · exact U1 c (by simpa using hc) hc0 hci

/-! ### The loop wrappers, with the fuel instantiated -/

theorem down_length (less : α → α → Bool) (d : List α) (i : Nat) :
    ((down less d i).1).length = d.length :=
  downGas_length less d.length d i

theorem down_perm (less : α → α → Bool) (d : List α) (i : Nat) :
    ((down less d i).1).Perm d :=
  downGas_perm less d.length d i

theorem down_idx_le (less : α → α → Bool) (d : List α) (i : Nat) :
    i ≤ (down less d i).2 :=
  downGas_idx_le less d.length d i

theorem down_stop (less : α → α → Bool) (d : List α) (i : Nat)
    (h : (down less d i).2 = i) : (down less d i).1 = d :=
  downGas_stop less d.length d i h

theorem down_frame (less : α → α → Bool) (d : List α) (i q : Nat)
    (h : inSub i q = false) : nth (down less d i).1 q = nth d q :=
  downGas_frame less d.length d i q h

theorem down_moved_val (less : α → α → Bool) (d : List α) (i : Nat)
    (h : i < (down less d i).2) :
    ∃ c, (c = 2*i+1 ∨ c = 2*i+2) ∧ c < d.length ∧
      nth (down less d i).1 i = nth d c :=
  downGas_moved_val less d.length d i h

theorem down_stop_children {less : α → α → Bool} (hswo : SWO less)
    (d : List α) (i : Nat) (h : (down less d i).2 = i) :
    ∀ c, (c = 2*i+1 ∨ c = 2*i+2) → c < d.length →
      less (nth d c) (nth d i) = false :=
  downGas_stop_children hswo d.length d i (by omega) h

theorem down_heap {less : α → α → Bool} (hswo : SWO less) (d : List α)
    (i : Nat)
    (H : ∀ c, c < d.length → 0 < c → i < (c-1)/2 → parentOK less d c) :
    ∀ c, c < d.length → 0 < c → i ≤ (c-1)/2 →
      parentOK less (down less d i).1 c :=
  downGas_heap hswo d.length d i (by omega) H

theorem up_length (less : α → α → Bool) (d : List α) (i : Nat) :
    (up less d i).length = d.length :=
  upGas_length less i d i

theorem up_perm (less : α → α → Bool) (d : List α) (i : Nat)
    (h : i < d.length) : (up less d i).Perm d :=
  upGas_perm less i d i h

theorem up_heap {less : α → α → Bool} (hswo : SWO less) (i : Nat)
    (d : List α) (hin : i < d.length)
    (U1 : ∀ c, c < d.length → 0 < c → c ≠ i → parentOK less d c)
    (U2 : ∀ c, c < d.length → (c = 2*i+1 ∨ c = 2*i+2) → 0 < i →
      less (nth d c) (nth d ((i-1)/2)) = false) :
    IsHeap less (up less d i) :=
  upGas_heap hswo i i d (Nat.le_refl i) hin U1 U2

/-! ### The shared down-else-up restoration step -/

theorem fixAt_length (less : α → α → Bool) (d : List α) (k : Nat) :
    (fixAt less d k).length = d.length := by
  rw [fixAt]
  split
  · exact down_length less d k
  · rw [up_length, down_length]

theorem fixAt_perm (less : α → α → Bool) (d : List α) (k : Nat)
    (hk : k < d.length) : (fixAt less d k).Perm d := by
  rw [fixAt]
  split
  · exact down_perm less d k
  · next hge =>
    have hidx : (down less d k).2 = k := by
      have := down_idx_le less d k; omega
    rw [down_stop less d k hidx]
    exact up_perm less d k hk

/-- If the list was a heap before the value at position `k` was replaced,
the down-else-up step restores the heap invariant.  This is the combined
correctness of the restoration step used by `Remove`, `Set` and `Fix`. -/
theorem fixAt_heap {less : α → α → Bool} (hswo : SWO less) (d : List α)
    (k : Nat) (v : α) (hk : k < d.length) (hh : IsHeap less (d.set k v)) :
    IsHeap less (fixAt less d k) := by
  have H : ∀ c, c < d.length → 0 < c → k < (c-1)/2 → parentOK less d c := by
    intro c hc hc0 hkc
    have h1 := hh c (by simpa using hc) hc0
    rw [parentOK, nth_set_ne d k c v (by omega),
      nth_set_ne d k ((c-1)/2) v (by omega)] at h1
    exact h1
  rw [fixAt]
  split
  · next hmove =>
    intro c hc hc0
    rw [down_length] at hc
    rcases Nat.lt_or_ge ((c-1)/2) k with hq | hq
    · by_cases hck : c = k
      · -- the pair between k and its old parent
        subst hck
        obtain ⟨c2, hc2ch, hc2n, hval⟩ := down_moved_val less d c hmove
        rw [parentOK, hval, down_frame less d c ((c-1)/2)
          (inSub_lt_false _ _ hq)]
        have h1 := hh c2 (by simpa using hc2n) (by omega)
        rw [parentOK, nth_set_ne d c c2 v (by omega)] at h1
        have hq2 : (c2-1)/2 = c := by omega
        rw [hq2, nth_set_self d c v hc] at h1
        have h2 := hh c (by simpa using hc) hc0
        rw [parentOK, nth_set_self d c v hc,
          nth_set_ne d c ((c-1)/2) v (by omega)] at h2
        exact hswo.negTrans _ _ _ h1 h2
      · -- a pair entirely outside the subtree of k
        have hfc : inSub k c = false :=
          inSub_false_of_parent_lt k c hck hq
        have hfp : inSub k ((c-1)/2) = false := inSub_lt_false _ _ hq
        rw [parentOK, down_frame less d k c hfc,
          down_frame less d k ((c-1)/2) hfp]
        have h1 := hh c (by simpa using hc) hc0
        rw [parentOK, nth_set_ne d k c v (fun h => hck h.symm),
          nth_set_ne d k ((c-1)/2) v (by omega)] at h1
        exact h1
    · exact down_heap hswo d k H c hc hc0 hq
  · next hge =>
    have hidx : (down less d k).2 = k := by
      have := down_idx_le less d k; omega
    rw [down_stop less d k hidx]
    apply up_heap hswo k d hk
    · intro c hc hc0 hck
      by_cases hq : (c-1)/2 = k
      · -- c is a child of k: sift-down made no move, so the pair holds
        rw [parentOK, hq]
        exact down_stop_children hswo d k hidx c (by omega) hc
      · have h1 := hh c (by simpa using hc) hc0
        rw [parentOK, nth_set_ne d k c v (fun h => hck h.symm),
          nth_set_ne d k ((c-1)/2) v (fun h => hq h.symm)] at h1
        exact h1
    · intro c hc hcch hk0
      have h1 := hh c (by simpa using hc) (by omega)
      rw [parentOK, nth_set_ne d k c v (by omega)] at h1
      have hq1 : (c-1)/2 = k := by omega
      rw [hq1, nth_set_self d k v hk] at h1
      have h2 := hh k (by simpa using hk) hk0
      rw [parentOK, nth_set_self d k v hk,
        nth_set_ne d k ((k-1)/2) v (by omega)] at h2
      exact hswo.negTrans _ _ _ h1 h2

/-- No restoration is necessary on a list already satisfying the invariant:
the down-else-up step leaves it unchanged. -/
theorem fixAt_id {less : α → α → Bool} (d : List α) (k : Nat)
    (hk : k < d.length) (hh : IsHeap less d) : fixAt less d k = d := by
  have hstop : (down less d k).2 = k := by
    rw [down]
    cases hl : d.length with
    | zero => omega
    | succ n =>
      simp only [downGas]
      split
      · next hn =>
        rw [if_neg]
        have h1 := hh (pickChild less d k)
          (pickChild_lt less d k (by omega)) (by have := pickChild_gt less d k; omega)
        rw [parentOK] at h1
        have hq : (pickChild less d k - 1)/2 = k := by
          have := pickChild_child less d k; omega
        rw [hq] at h1
        rw [h1]
        exact Bool.false_ne_true
      · rfl
  rw [fixAt, if_neg (by omega), down_stop less d k hstop]
  rw [up]
  cases k with
  | zero => rfl
  | succ m =>
    simp only [upGas]
    rw [if_neg (by omega), if_neg]
    have h1 := hh (m+1) hk (by omega)
    rw [parentOK] at h1
    rw [h1]
    exact Bool.false_ne_true

/-! ### Heapify (NewFrom) -/

theorem heapifyFrom_length (less : α → α → Bool) :
    ∀ (k : Nat) (d : List α), (heapifyFrom less k d).length = d.length := by
  intro k
  induction k with
  | zero => intro d; rfl
  | succ k ih =>
    intro d
    simp only [heapifyFrom]
    rw [ih, down_length]

theorem heapifyFrom_perm (less : α → α → Bool) :
    ∀ (k : Nat) (d : List α), (heapifyFrom less k d).Perm d := by
  intro k
  induction k with
  | zero => intro d; exact List.Perm.refl d
  | succ k ih =>
    intro d
    simp only [heapifyFrom]
    exact (ih _).trans (down_perm less d k)

theorem heapifyFrom_heap {less : α → α → Bool} (hswo : SWO less) :
    ∀ (k : Nat) (d : List α),
      (∀ c, c < d.length → 0 < c → k ≤ (c-1)/2 → parentOK less d c) →
      IsHeap less (heapifyFrom less k d) := by
  intro k
  induction k with
  | zero => intro d H c hc hc0; exact H c hc hc0 (by omega)
  | succ k ih =>
    intro d H
    simp only [heapifyFrom]
    apply ih
    intro c hc hc0 hkc
    rw [down_length] at hc
    exact down_heap hswo d k
      (fun c2 hc2 hc20 hkc2 => H c2 hc2 hc20 (by omega)) c hc hc0 hkc

theorem NewFrom_heap {less : α → α → Bool} (hswo : SWO less) (l : List α) :
    IsHeap less (NewFrom less l).data := by
  apply heapifyFrom_heap hswo
  intro c hc hc0 hkc
  omega

theorem NewFrom_perm (less : α → α → Bool) (l : List α) :
    ((NewFrom less l).data).Perm l :=
  heapifyFrom_perm less (l.length / 2) l

/-! ### Prefix and root lemmas -/

theorem IsHeap_take {less : α → α → Bool} (d : List α) (m : Nat)
    (hh : IsHeap less d) : IsHeap less (d.take m) := by
  intro c hc hc0
  rw [List.length_take] at hc
  have hcm : c < m := by omega
  have hcd : c < d.length := by omega
  rw [parentOK, nth_take d m c hcm, nth_take d m ((c-1)/2) (by omega)]
  exact hh c hcd hc0

theorem take_last_perm : ∀ (d : List α), d ≠ [] →
    (nth d (d.length - 1) :: d.take (d.length - 1)).Perm d := by
  intro d hd
  have h1 : d.dropLast ++ [d.getLast hd] = d := List.dropLast_concat_getLast hd
  have h2 : d.take (d.length - 1) = d.dropLast := (List.dropLast_eq_take d).symm
  have hlen : 0 < d.length := List.length_pos.mpr hd
  have h3 : nth d (d.length - 1) = d.getLast hd := by
    rw [nth_eq_getElem d _ (by omega), List.getLast_eq_getElem]
    simp [List.get_eq_getElem]
  have h4 : (d.getLast hd :: d.dropLast).Perm (d.dropLast ++ [d.getLast hd]) :=
    (List.perm_append_singleton _ _).symm
  rw [h1] at h4
  rw [h2, h3]
  exact h4

/-- In a heap every element is at least the root: the root is minimal. -/
theorem root_min {less : α → α → Bool} (hswo : SWO less) (d : List α)
    (hh : IsHeap less d) :
    ∀ q, q < d.length → less (nth d q) (nth d 0) = false := by
  intro q
  induction q using Nat.strong_induction_on with
  | _ q ih =>
    intro hq
    cases Nat.eq_zero_or_pos q with
    | inl h0 => subst h0; exact hswo.irrefl _
    | inr h0 =>
      have h1 := hh q hq h0
      rw [parentOK] at h1
      have h2 := ih ((q-1)/2) (by omega) (by omega)
      exact hswo.negTrans _ _ _ h1 h2

/-! ### Pop -/

theorem pop_eq (h : Heap α) (hn : 0 < h.data.length) :
    h.Pop = (Except.ok (nth h.data 0),
      { h with data := (down h.less
        ((h.data.set 0 (nth h.data (h.data.length - 1))).take
          (h.data.length - 1)) 0).1 }) := by
  rw [Heap.Pop, if_neg (by omega)]

theorem pop_less (h : Heap α) : (h.Pop).2.less = h.less := by
  rw [Heap.Pop]
  split <;> rfl

theorem pop_length (h : Heap α) (hn : 0 < h.data.length) :
    (h.Pop).2.data.length = h.data.length - 1 := by
  rw [pop_eq h hn]
  simp [down_length]

/-- Moving the last element to the root and truncating removes exactly the
old root from the contents. -/
theorem pop_core_perm (d : List α) (hn : 0 < d.length) :
    (nth d 0 ::
      (d.set 0 (nth d (d.length - 1))).take (d.length - 1)).Perm d := by
  cases d with
  | nil => simp at hn
  | cons a t =>
    by_cases ht : t = []
    · subst ht; simp
    · have htl : 0 < t.length := List.length_pos.mpr ht
      have hlen : (a :: t).length - 1 = (t.length - 1) + 1 := by
        simp; omega
      rw [hlen, nth_cons_zero, nth_cons_succ, List.set_cons_zero,
        List.take_succ_cons]
      exact List.Perm.cons a (take_last_perm t ht)

theorem pop_perm (h : Heap α) (hn : 0 < h.data.length) :
    (nth h.data 0 :: (h.Pop).2.data).Perm h.data := by
  rw [pop_eq h hn]
  exact (List.Perm.cons _ (down_perm _ _ _)).trans (pop_core_perm h.data hn)

/-- The list-level effect of a successful Pop preserves the invariant. -/
theorem pop_core_heap {less : α → α → Bool} (hswo : SWO less) (d : List α)
    (hh : IsHeap less d) :
    IsHeap less
      (down less ((d.set 0 (nth d (d.length - 1))).take (d.length - 1)) 0).1 := by
  intro c hc hc0
  rw [down_length, List.length_take, List.length_set] at hc
  apply down_heap hswo _ 0 ?_ c ?_ hc0 (by omega)
  · intro c2 hc2 hc20 h0c2
    rw [List.length_take, List.length_set] at hc2
    rw [parentOK, nth_take _ _ c2 (by omega), nth_take _ _ ((c2-1)/2) (by omega),
      nth_set_ne _ 0 c2 _ (by omega), nth_set_ne _ 0 ((c2-1)/2) _ (by omega)]
    exact hh c2 (by omega) hc20
  · rw [List.length_take, List.length_set]; omega

theorem pop_heap (h : Heap α) (hswo : SWO h.less) (hh : IsHeap h.less h.data)
    (hn : 0 < h.data.length) : IsHeap h.less (h.Pop).2.data := by
  rw [pop_eq h hn]
  exact pop_core_heap hswo h.data hh

/-! ### Push -/

theorem push_less (h : Heap α) (x : α) : (h.Push x).less = h.less := rfl

theorem push_length (h : Heap α) (x : α) :
    (h.Push x).data.length = h.data.length + 1 := by
  show (up _ _ _).length = _
  rw [up_length]
  simp

theorem push_perm (h : Heap α) (x : α) :
    ((h.Push x).data).Perm (h.data ++ [x]) := by
  show (up _ _ _).Perm _
  apply up_perm
  simp

theorem push_heap (h : Heap α) (x : α) (hswo : SWO h.less)
    (hh : IsHeap h.less h.data) : IsHeap h.less (h.Push x).data := by
  show IsHeap h.less (up h.less (h.data ++ [x]) ((h.data ++ [x]).length - 1))
  have hlen : (h.data ++ [x]).length - 1 = h.data.length := by simp
  rw [hlen]
  apply up_heap hswo _ _ (by simp)
  · intro c hc hc0 hcn
    rw [List.length_append] at hc
    have hcd : c < h.data.length := by simp at hc; omega
    rw [parentOK, nth_append_left _ _ c hcd,
      nth_append_left _ _ ((c-1)/2) (by omega)]
    exact hh c hcd hc0
  · intro c hc hcch hn0
    exfalso
    rw [List.length_append] at hc
    simp at hc
    omega

/-! ### Remove (the interior case: move last into slot k, truncate, fix) -/

theorem remove_core_perm (less : α → α → Bool) (d : List α) (k : Nat)
    (hk : k < d.length - 1) :
    (nth d k ::
      fixAt less ((d.set k (nth d (d.length - 1))).take (d.length - 1))
        k).Perm d := by
  have hd : d ≠ [] := by
    intro he; rw [he] at hk; simp at hk
  have hfix := fixAt_perm less
    ((d.set k (nth d (d.length - 1))).take (d.length - 1)) k
    (by rw [List.length_take, List.length_set]; omega)
  refine (List.Perm.cons _ hfix).trans ?_
  rw [List.set_take]
  have h1 : nth d k = nth (d.take (d.length - 1)) k :=
    (nth_take d (d.length - 1) k hk).symm
  rw [h1]
  refine (perm_set_cons _ _ k ?_).trans ?_
  · rw [List.length_take]; omega
  · exact take_last_perm d hd

theorem remove_core_heap {less : α → α → Bool} (hswo : SWO less)
    (d : List α) (k : Nat) (hk : k < d.length - 1) (hh : IsHeap less d) :
    IsHeap less
      (fixAt less ((d.set k (nth d (d.length - 1))).take (d.length - 1)) k) := by
  apply fixAt_heap hswo _ k (nth d k)
  · rw [List.length_take, List.length_set]; omega
  · rw [List.set_take, List.set_set, ← List.set_take, set_nth_self d k (by omega)]
    exact IsHeap_take d (d.length - 1) hh

/-! ### Set and Fix -/

theorem fix_core_heap {less : α → α → Bool} (hswo : SWO less) (d : List α)
    (k : Nat) (hk : k < d.length) (hh : IsHeap less d) :
    IsHeap less (fixAt less d k) := by
  apply fixAt_heap hswo d k (nth d k) hk
  rw [set_nth_self d k hk]
  exact hh

theorem set_core_heap {less : α → α → Bool} (hswo : SWO less) (d : List α)
    (k : Nat) (x : α) (hk : k < d.length) (hh : IsHeap less d) :
    IsHeap less (fixAt less (d.set k x) k) := by
  apply fixAt_heap hswo _ k (nth d k)
  · simpa using hk
  · rw [List.set_set, set_nth_self d k hk]
    exact hh

theorem set_core_perm (less : α → α → Bool) (d : List α) (k : Nat) (x : α)
    (hk : k < d.length) : (fixAt less (d.set k x) k).Perm (d.set k x) :=
  fixAt_perm less (d.set k x) k (by simpa using hk)

/-! ### Shape lemmas for the fallible operations -/

theorem peek_state (h : Heap α) : (h.Peek).2 = h := by
  rw [Heap.Peek]; split <;> rfl

theorem at_state (h : Heap α) (i : Int) : (h.At i).2 = h := by
  rw [Heap.At]; split <;> rfl

theorem pop_state_empty (h : Heap α) (hn : h.data.length = 0) :
    (h.Pop).2 = h := by
  rw [Heap.Pop, if_pos hn]

theorem remove_less (h : Heap α) (i : Int) : (h.Remove i).2.less = h.less := by
  rw [Heap.Remove]
  split
  · rfl
  · split
    · exact pop_less h
    · split <;> rfl

theorem fix_less (h : Heap α) (i : Int) : (h.Fix i).2.less = h.less := by
  rw [Heap.Fix]; split <;> rfl

theorem set_less (h : Heap α) (i : Int) (x : α) :
    (h.Set i x).2.less = h.less := by
  rw [Heap.Set]
  split
  · rfl
  · exact fix_less _ i

/-! ### Reachable heap states -/

/-- The states reachable through the public interface: construction by `New`
or `NewFrom` followed by any sequence of mutating calls (calls with invalid
arguments leave the state unchanged in the embedding, so they are included
unconditionally). -/
inductive Reach : Heap α → Prop
  | new : ∀ less, Reach (New less)
  | newFrom : ∀ less l, Reach (NewFrom less l)
  | push : ∀ h x, Reach h → Reach (h.Push x)
  | pop : ∀ h, Reach h → Reach (h.Pop).2
  | remove : ∀ h i, Reach h → Reach ((h.Remove i).2)
  | set : ∀ h i x, Reach h → Reach ((h.Set i x).2)
  | fix : ∀ h i, Reach h → Reach ((h.Fix i).2)

theorem reach_heap (h : Heap α) (hr : Reach h) :
    SWO h.less → IsHeap h.less h.data := by
  induction hr with
  | new less =>
    intro _ c hc hc0
    simp [New] at hc
  | newFrom less l =>
    intro hswo
    exact NewFrom_heap hswo l
  | push h x _ ih =>
    intro hswo
    exact push_heap h x hswo (ih hswo)
  | pop h _ ih =>
    rw [pop_less]
    intro hswo
    by_cases hn : h.data.length = 0
    · rw [pop_state_empty h hn]
      exact ih hswo
    · exact pop_heap h hswo (ih hswo) (by omega)
  | remove h i _ ih =>
    rw [remove_less]
    intro hswo
    by_cases herr : i < 0 ∨ (h.data.length : Int) - 1 < i
    · have hs : (h.Remove i).2 = h := by rw [Heap.Remove, if_pos herr]
      rw [hs]
      exact ih hswo
    · have hn : 0 < h.data.length := by omega
      by_cases h0 : i = 0
      · have hs : h.Remove i = h.Pop := by
          rw [Heap.Remove, if_neg herr, if_pos h0]
        rw [hs]
        exact pop_heap h hswo (ih hswo) hn
      · have hk : i.toNat ≤ h.data.length - 1 := by omega
        by_cases hlast : h.data.length - 1 ≠ i.toNat
        · have hs : (h.Remove i).2.data =
              fixAt h.less
                ((h.data.set i.toNat (nth h.data (h.data.length - 1))).take
                  (h.data.length - 1)) i.toNat := by
            rw [Heap.Remove, if_neg herr, if_neg h0, if_pos hlast]
          rw [hs]
          exact remove_core_heap hswo h.data i.toNat (by omega) (ih hswo)
        · have hs : (h.Remove i).2.data = h.data.take (h.data.length - 1) := by
            rw [Heap.Remove, if_neg herr, if_neg h0, if_neg hlast]
          rw [hs]
          exact IsHeap_take h.data _ (ih hswo)
  | set h i x _ ih =>
    rw [set_less]
    intro hswo
    by_cases herr : i < 0 ∨ (h.data.length : Int) ≤ i
    · have hs : (h.Set i x).2 = h := by rw [Heap.Set, if_pos herr]
      rw [hs]
      exact ih hswo
    · have hs : (h.Set i x).2.data = fixAt h.less (h.data.set i.toNat x) i.toNat := by
        rw [Heap.Set, if_neg herr, Heap.Fix, if_neg (by simpa using herr)]
      rw [hs]
      exact set_core_heap hswo h.data i.toNat x (by omega) (ih hswo)
  | fix h i _ ih =>
    rw [fix_less]
    intro hswo
    by_cases herr : i < 0 ∨ (h.data.length : Int) ≤ i
    · have hs : (h.Fix i).2 = h := by rw [Heap.Fix, if_pos herr]
      rw [hs]
      exact ih hswo
    · have hs : (h.Fix i).2.data = fixAt h.less h.data i.toNat := by
        rw [Heap.Fix, if_neg herr]
      rw [hs]
      exact fix_core_heap hswo h.data i.toNat (by omega) (ih hswo)

/-! ### The child-pair formulation of the invariant -/

theorem isHeap_iff_children (less : α → α → Bool) (d : List α) :
    IsHeap less d ↔ ∀ i c, (c = 2*i+1 ∨ c = 2*i+2) → c < d.length →
      less (nth d c) (nth d i) = false := by
  constructor
  · intro hh i c hcc hcn
    have hp : (c-1)/2 = i := by omega
    have h1 := hh c hcn (by omega)
    rw [parentOK, hp] at h1
    exact h1
  · intro H c hc hc0
    rw [parentOK]
    exact H ((c-1)/2) c (by omega) hc

/-- Every member of a heap is at least the root. -/
theorem mem_min {less : α → α → Bool} (hswo : SWO less) (d : List α)
    (hh : IsHeap less d) (b : α) (hb : b ∈ d) :
    less b (nth d 0) = false := by
  obtain ⟨n, hn⟩ := List.mem_iff_get.mp hb
  have h1 := root_min hswo d hh n.1 n.2
  rw [nth_eq_getElem d n.1 n.2] at h1
  rw [← hn]
  simpa using h1

/-! ### Draining and filling a heap (the usage pattern of the tests) -/

/-- Pop repeatedly (with fuel) collecting the results, until the heap
reports empty. -/
def popAllGo : Nat → Heap α → List α
  | 0, _ => []
  | Nat.succ f, h =>
    match h.Pop with
    | (Except.ok x, h2) => x :: popAllGo f h2
    | (Except.error _, _) => []

/-- Drain the heap completely by repeated Pop. -/
def popAll (h : Heap α) : List α := popAllGo h.data.length h

/-- Push each element of a list in order. -/
def pushAll (h : Heap α) (xs : List α) : Heap α := xs.foldl Heap.Push h

theorem popAllGo_empty (f : Nat) (h : Heap α) (hn : h.data.length = 0) :
    popAllGo (Nat.succ f) h = [] := by
  simp only [popAllGo, Heap.Pop, if_pos hn]

theorem popAllGo_pos (f : Nat) (h : Heap α) (hn : 0 < h.data.length) :
    popAllGo (Nat.succ f) h = nth h.data 0 :: popAllGo f (h.Pop).2 := by
  simp only [popAllGo]
  rw [pop_eq h hn]

theorem popAllGo_perm : ∀ (f : Nat) (h : Heap α), h.data.length ≤ f →
    (popAllGo f h).Perm h.data := by
  intro f
  induction f with
  | zero =>
    intro h hf
    have : h.data = [] := List.length_eq_zero.mp (by omega)
    rw [this]
    exact List.Perm.refl _
  | succ f ih =>
    intro h hf
    by_cases hn : h.data.length = 0
    · rw [popAllGo_empty f h hn, List.length_eq_zero.mp hn]
    · rw [popAllGo_pos f h (by omega)]
      have h2 := ih (h.Pop).2 (by rw [pop_length h (by omega)]; omega)
      exact (List.Perm.cons _ h2).trans (pop_perm h (by omega))

theorem popAll_perm (h : Heap α) : (popAll h).Perm h.data :=
  popAllGo_perm h.data.length h (Nat.le_refl _)

theorem popAllGo_sorted : ∀ (f : Nat) (h : Heap α), h.data.length ≤ f →
    SWO h.less → IsHeap h.less h.data →
    List.Pairwise (fun a b => h.less b a = false) (popAllGo f h) := by
  intro f
  induction f with
  | zero => intro h _ _ _; exact List.Pairwise.nil
  | succ f ih =>
    intro h hf hswo hh
    by_cases hn : h.data.length = 0
    · rw [popAllGo_empty f h hn]
      exact List.Pairwise.nil
    · rw [popAllGo_pos f h (by omega)]
      rw [List.pairwise_cons]
      constructor
      · intro b hb
        have hb2 : b ∈ (h.Pop).2.data :=
          (popAllGo_perm f (h.Pop).2
            (by rw [pop_length h (by omega)]; omega)).mem_iff.mp hb
        have hb3 : b ∈ h.data :=
          (pop_perm h (by omega)).mem_iff.mp (List.mem_cons_of_mem _ hb2)
        exact mem_min hswo h.data hh b hb3
      · have hless := pop_less h
        have h1 := ih (h.Pop).2
          (by rw [pop_length h (by omega)]; omega)
          (by rw [hless]; exact hswo)
          (by rw [hless]; exact pop_heap h hswo hh (by omega))
        rw [hless] at h1
        exact h1

theorem popAll_sorted (h : Heap α) (hswo : SWO h.less)
    (hh : IsHeap h.less h.data) :
    List.Pairwise (fun a b => h.less b a = false) (popAll h) :=
  popAllGo_sorted h.data.length h (Nat.le_refl _) hswo hh

theorem pushAll_less : ∀ (xs : List α) (h : Heap α),
    (pushAll h xs).less = h.less := by
  intro xs
  induction xs with
  | nil => intro h; rfl
  | cons x xs ih =>
    intro h
    show (pushAll (h.Push x) xs).less = h.less
    rw [ih (h.Push x), push_less]

theorem pushAll_heap : ∀ (xs : List α) (h : Heap α), SWO h.less →
    IsHeap h.less h.data → IsHeap (pushAll h xs).less (pushAll h xs).data := by
  intro xs
  induction xs with
  | nil => intro h _ hh; exact hh
  | cons x xs ih =>
    intro h hswo hh
    show IsHeap (pushAll (h.Push x) xs).less (pushAll (h.Push x) xs).data
    exact ih (h.Push x) hswo (push_heap h x hswo hh)

/-! ### Operation-level Remove, Set and Fix lemmas -/

theorem remove_ok (h : Heap α) (i : Int) (h0 : 0 ≤ i)
    (hi : i < (h.data.length : Int)) :
    (h.Remove i).1 = Except.ok (nth h.data i.toNat) := by
  have hn : 0 < h.data.length := by omega
  rw [Heap.Remove, if_neg (by omega)]
  by_cases hz : i = 0
  · rw [if_pos hz, pop_eq h hn, hz]
    rfl
  · rw [if_neg hz]
    by_cases hlast : h.data.length - 1 ≠ i.toNat
    · rw [if_pos hlast]
    · rw [if_neg hlast]

theorem remove_perm (h : Heap α) (i : Int) (h0 : 0 ≤ i)
    (hi : i < (h.data.length : Int)) :
    (nth h.data i.toNat :: (h.Remove i).2.data).Perm h.data := by
  have hn : 0 < h.data.length := by omega
  have hd : h.data ≠ [] := by
    intro he; rw [he] at hn; simp at hn
  rw [Heap.Remove, if_neg (by omega)]
  by_cases hz : i = 0
  · rw [if_pos hz, hz]
    exact pop_perm h hn
  · rw [if_neg hz]
    by_cases hlast : h.data.length - 1 ≠ i.toNat
    · rw [if_pos hlast]
      exact remove_core_perm h.less h.data i.toNat (by omega)
    · rw [if_neg hlast]
      have hk : i.toNat = h.data.length - 1 := by omega
      rw [hk]
      exact take_last_perm h.data hd

theorem remove_heap (h : Heap α) (i : Int) (hswo : SWO h.less)
    (hh : IsHeap h.less h.data) (h0 : 0 ≤ i)
    (hi : i < (h.data.length : Int)) :
    IsHeap h.less (h.Remove i).2.data := by
  have hn : 0 < h.data.length := by omega
  rw [Heap.Remove, if_neg (by omega)]
  by_cases hz : i = 0
  · rw [if_pos hz]
    exact pop_heap h hswo hh hn
  · rw [if_neg hz]
    by_cases hlast : h.data.length - 1 ≠ i.toNat
    · rw [if_pos hlast]
      exact remove_core_heap hswo h.data i.toNat (by omega) hh
    · rw [if_neg hlast]
      exact IsHeap_take h.data _ hh

theorem remove_length (h : Heap α) (i : Int) (h0 : 0 ≤ i)
    (hi : i < (h.data.length : Int)) :
    (h.Remove i).2.data.length = h.data.length - 1 := by
  have hperm := remove_perm h i h0 hi
  have := hperm.length_eq
  simp at this
  omega

theorem set_data_eq (h : Heap α) (i : Int) (x : α) (h0 : 0 ≤ i)
    (hi : i < (h.data.length : Int)) :
    (h.Set i x).2.data = fixAt h.less (h.data.set i.toNat x) i.toNat := by
  rw [Heap.Set, if_neg (by omega), Heap.Fix,
    if_neg (by rw [List.length_set]; omega)]

theorem fix_data_eq (h : Heap α) (i : Int) (h0 : 0 ≤ i)
    (hi : i < (h.data.length : Int)) :
    (h.Fix i).2.data = fixAt h.less h.data i.toNat := by
  rw [Heap.Fix, if_neg (by omega)]

/-- Fix on a heap already satisfying the invariant changes nothing. -/
theorem fix_id_op (h : Heap α) (i : Int) (hh : IsHeap h.less h.data)
    (h0 : 0 ≤ i) (hi : i < (h.data.length : Int)) : (h.Fix i).2 = h := by
  rw [Heap.Fix, if_neg (by omega)]
  show ({h with data := fixAt h.less h.data i.toNat}) = h
  rw [fixAt_id h.data i.toNat (by omega) hh]

/-! ### Fuel invariance: the loops terminate within the provided bounds -/

theorem downGas_exhaust (less : α → α → Bool) (d : List α) (i : Nat)
    (h : d.length ≤ i) : ∀ g, downGas less g d i = (d, i) := by
  intro g
  cases g with
  | zero => rfl
  | succ g =>
    simp only [downGas]
    rw [if_neg (by omega)]

theorem downGas_congr (less : α → α → Bool) :
    ∀ (f g : Nat) (d : List α) (i : Nat), d.length ≤ i + f →
      d.length ≤ i + g → downGas less f d i = downGas less g d i := by
  intro f
  induction f with
  | zero =>
    intro g d i hf _
    rw [downGas_exhaust less d i (by omega) g]
    rfl
  | succ f ih =>
    intro g d i hf hg
    cases g with
    | zero =>
      rw [downGas_exhaust less d i (by omega) (Nat.succ f)]
      rfl
    | succ g =>
      simp only [downGas]
      split
      · split
        · apply ih
          · rw [swap_length]
            have := pickChild_gt less d i
            omega
          · rw [swap_length]
            have := pickChild_gt less d i
            omega
        · rfl
      · rfl

theorem upGas_zero_idx (less : α → α → Bool) (d : List α) :
    ∀ g, upGas less g d 0 = d := by
  intro g
  cases g with
  | zero => rfl
  | succ g => simp [upGas]

theorem upGas_congr (less : α → α → Bool) :
    ∀ (f g : Nat) (d : List α) (i : Nat), i ≤ f → i ≤ g →
      upGas less f d i = upGas less g d i := by
  intro f
  induction f with
  | zero =>
    intro g d i hf _
    have hi0 : i = 0 := by omega
    subst hi0
    rw [upGas_zero_idx less d g]
    rfl
  | succ f ih =>
    intro g d i hf hg
    cases g with
    | zero =>
      have hi0 : i = 0 := by omega
      subst hi0
      rw [upGas_zero_idx less d (Nat.succ f)]
      rfl
    | succ g =>
      simp only [upGas]
      split
      · rfl
      · split
        · next h0 _ =>
          apply ih <;> omega
        · rfl

/-! ### A concrete strict order on integers, for the witnesses -/

/-- Strict less-than on integers as a Bool comparator (min-heap order). -/
def intLt : Int → Int → Bool := fun a b => decide (a < b)

/-- Strict greater-than on integers as a Bool comparator (max-heap order). -/
def intGt : Int → Int → Bool := fun a b => decide (b < a)

theorem intLt_swo : SWO intLt := by
  constructor
  · intro a b hab
    simp only [intLt, decide_eq_true_eq] at hab
    simp only [intLt, decide_eq_false_iff_not]
    omega
  · intro a b c hab hbc
    simp only [intLt, decide_eq_false_iff_not] at hab hbc ⊢
    omega

theorem intGt_swo : SWO intGt := by
  constructor
  · intro a b hab
    simp only [intGt, decide_eq_true_eq] at hab
    simp only [intGt, decide_eq_false_iff_not]
    omega
  · intro a b c hab hbc
    simp only [intGt, decide_eq_false_iff_not] at hab hbc ⊢
    omega

/-! ### The claims -/

/-- C1: for every heap reachable by any sequence of public operations, with
`less` a strict order on the elements, every in-range child `c` (at `2i+1`
or `2i+2`) of every index `i` satisfies `less(elements[c], elements[i]) =
false`; equivalently `elements[0]`, when present, is minimal under `less`. -/
theorem claim_C1 (h : Heap α) (hr : Reach h) (hswo : SWO h.less) :
    (∀ i c, (c = 2*i+1 ∨ c = 2*i+2) → c < h.data.length →
      h.less (nth h.data c) (nth h.data i) = false) ∧
    (∀ q, q < h.data.length →
      h.less (nth h.data q) (nth h.data 0) = false) := by
  have hh := reach_heap h hr hswo
  exact ⟨(isHeap_iff_children h.less h.data).mp hh, root_min hswo h.data hh⟩

theorem claim_C1_witness :
    SWO (NewFrom intLt [5, 2, 4]).less ∧
    (∀ i c, (c = 2*i+1 ∨ c = 2*i+2) → c < (NewFrom intLt [5, 2, 4]).data.length →
      (NewFrom intLt [5, 2, 4]).less (nth (NewFrom intLt [5, 2, 4]).data c)
        (nth (NewFrom intLt [5, 2, 4]).data i) = false) :=
  ⟨intLt_swo,
   (claim_C1 (NewFrom intLt [5, 2, 4]) (Reach.newFrom intLt [5, 2, 4])
     intLt_swo).1⟩

/-- C2: on a nonempty heap satisfying the invariant, Pop returns the element
previously at index 0, which is minimal (no remaining element is strictly
less); the new contents are the old multiset minus one occurrence of the
returned element, and the length decreases by exactly one. -/
theorem claim_C2 (h : Heap α) (hswo : SWO h.less) (hh : IsHeap h.less h.data)
    (hn : 0 < h.data.length) :
    (h.Pop).1 = Except.ok (nth h.data 0) ∧
    (∀ y ∈ (h.Pop).2.data, h.less y (nth h.data 0) = false) ∧
    (nth h.data 0 :: (h.Pop).2.data).Perm h.data ∧
    (h.Pop).2.data.length = h.data.length - 1 := by
  refine ⟨?_, ?_, pop_perm h hn, pop_length h hn⟩
  · rw [pop_eq h hn]
  · intro y hy
    have hyd : y ∈ h.data :=
      (pop_perm h hn).mem_iff.mp (List.mem_cons_of_mem _ hy)
    exact mem_min hswo h.data hh y hyd

theorem claim_C2_witness :
    SWO intLt ∧ IsHeap intLt ([0, 2, 1] : List Int) ∧
    (({ data := [0, 2, 1], less := intLt } : Heap Int).Pop).1 =
      Except.ok 0 :=
  ⟨intLt_swo, by decide,
   (claim_C2 { data := [0, 2, 1], less := intLt } intLt_swo (by decide)
     (by decide)).1⟩

/-- C3: pushing any sequence of values onto an empty heap and then popping
until empty yields a sequence that is non-decreasing under `less` (no later
element is strictly less than an earlier one). -/
theorem claim_C3 (less : α → α → Bool) (hswo : SWO less) (xs : List α) :
    List.Pairwise (fun a b => less b a = false)
      (popAll (pushAll (New less) xs)) := by
  have hl : (pushAll (New less) xs).less = less :=
    pushAll_less xs (New less)
  have hh := pushAll_heap xs (New less) hswo (by intro c hc _; simp [New] at hc)
  have h1 := popAll_sorted (pushAll (New less) xs) (by rw [hl]; exact hswo) hh
  rw [hl] at h1
  exact h1

theorem claim_C3_witness :
    SWO intLt ∧
    List.Pairwise (fun a b => intLt b a = false)
      (popAll (pushAll (New intLt) [9, 4, 3, 0, 6])) ∧
    popAll (pushAll (New intLt) [9, 4, 3, 0, 6]) = [0, 3, 4, 6, 9] :=
  ⟨intLt_swo, claim_C3 intLt intLt_swo [9, 4, 3, 0, 6], by decide⟩

/-- C4: NewFrom builds a heap containing exactly the given elements as a
multiset (by sifting down each index from n/2 - 1 down to 0) and the result
satisfies the heap invariant. -/
theorem claim_C4 (less : α → α → Bool) (hswo : SWO less) (l : List α) :
    ((NewFrom less l).data).Perm l ∧
    (∀ i c, (c = 2*i+1 ∨ c = 2*i+2) → c < (NewFrom less l).data.length →
      less (nth (NewFrom less l).data c) (nth (NewFrom less l).data i) =
        false) :=
  ⟨NewFrom_perm less l,
   (isHeap_iff_children less (NewFrom less l).data).mp (NewFrom_heap hswo l)⟩

theorem claim_C4_witness :
    SWO intLt ∧
    ((NewFrom intLt [6, 3, 7, 5, 2, 4, 1]).data).Perm [6, 3, 7, 5, 2, 4, 1] ∧
    popAll (NewFrom intLt [6, 3, 7, 5, 2, 4, 1]) = [1, 2, 3, 4, 5, 6, 7] ∧
    popAll (NewFrom intGt [-3, 5, 7, 9, 2, -1]) = [9, 7, 5, 2, -1, -3] :=
  ⟨intLt_swo, (claim_C4 intLt intLt_swo [6, 3, 7, 5, 2, 4, 1]).1,
   by decide, by decide⟩

/-- C5: on a heap satisfying the invariant, Remove at a valid index returns
the element stored there, removes exactly that occurrence, and restores the
invariant; index 0 behaves exactly as Pop; the last index merely truncates;
the length decreases by exactly one. -/
theorem claim_C5 (h : Heap α) (i : Int) (hswo : SWO h.less)
    (hh : IsHeap h.less h.data) (h0 : 0 ≤ i)
    (hi : i < (h.data.length : Int)) :
    (h.Remove i).1 = Except.ok (nth h.data i.toNat) ∧
    (nth h.data i.toNat :: (h.Remove i).2.data).Perm h.data ∧
    IsHeap h.less (h.Remove i).2.data ∧
    (h.Remove i).2.data.length = h.data.length - 1 ∧
    (i = 0 → h.Remove i = h.Pop) ∧
    (i.toNat = h.data.length - 1 →
      (h.Remove i).2.data = h.data.take (h.data.length - 1)) := by
  have hn : 0 < h.data.length := by omega
  refine ⟨remove_ok h i h0 hi, remove_perm h i h0 hi,
    remove_heap h i hswo hh h0 hi, remove_length h i h0 hi, ?_, ?_⟩
  · intro hz
    rw [Heap.Remove, if_neg (by omega), if_pos hz]
  · intro hlast
    by_cases hz : i = 0
    · have hlen1 : h.data.length - 1 = 0 := by omega
      rw [Heap.Remove, if_neg (by omega), if_pos hz, pop_eq h hn, hlen1]
      simp only [List.take_zero]
      rfl
    · rw [Heap.Remove, if_neg (by omega), if_neg hz, if_neg (by omega)]

theorem claim_C5_witness :
    SWO intLt ∧ IsHeap intLt ([0, 1, 2, 3, 4] : List Int) ∧
    (({ data := [0, 1, 2, 3, 4], less := intLt } : Heap Int).Remove 2).1 =
      Except.ok 2 :=
  ⟨intLt_swo, by decide,
   (claim_C5 { data := [0, 1, 2, 3, 4], less := intLt } 2 intLt_swo
     (by decide) (by decide) (by decide)).1⟩

/-- C6: Pop and Peek report the empty-heap error exactly when the length is
zero; At, Remove, Set and Fix report the index-out-of-range error exactly
when the index is negative or at least the length; and every erroring call
leaves the heap exactly as it was. -/
theorem claim_C6 (h : Heap α) (i : Int) (x : α) :
    ((h.Pop).1 = Except.error HeapErr.emptyHeap ↔ h.data.length = 0) ∧
    (h.data.length = 0 → (h.Pop).2 = h) ∧
    ((h.Peek).1 = Except.error HeapErr.emptyHeap ↔ h.data.length = 0) ∧
    (h.Peek).2 = h ∧
    ((h.At i).1 = Except.error HeapErr.indexOutOfRange ↔
      i < 0 ∨ (h.data.length : Int) ≤ i) ∧
    (h.At i).2 = h ∧
    ((h.Remove i).1 = Except.error HeapErr.indexOutOfRange ↔
      i < 0 ∨ (h.data.length : Int) ≤ i) ∧
    ((i < 0 ∨ (h.data.length : Int) ≤ i) → (h.Remove i).2 = h) ∧
    ((h.Set i x).1 = Except.error HeapErr.indexOutOfRange ↔
      i < 0 ∨ (h.data.length : Int) ≤ i) ∧
    ((i < 0 ∨ (h.data.length : Int) ≤ i) → (h.Set i x).2 = h) ∧
    ((h.Fix i).1 = Except.error HeapErr.indexOutOfRange ↔
      i < 0 ∨ (h.data.length : Int) ≤ i) ∧
    ((i < 0 ∨ (h.data.length : Int) ≤ i) → (h.Fix i).2 = h) := by
  refine ⟨?_, fun hn => pop_state_empty h hn, ?_, peek_state h, ?_,
    at_state h i, ?_, ?_, ?_, ?_, ?_, ?_⟩
  · by_cases hn : h.data.length = 0
    · rw [Heap.Pop, if_pos hn]
      simp [hn]
    · rw [pop_eq h (by omega)]
      simp [hn]
  · by_cases hn : h.data.length = 0
    · rw [Heap.Peek, if_pos hn]
      simp [hn]
    · rw [Heap.Peek, if_neg hn]
      simp [hn]
  · by_cases herr : i < 0 ∨ (h.data.length : Int) ≤ i
    · rw [Heap.At, if_pos herr]
      simp [herr]
    · rw [Heap.At, if_neg herr]
      simp [herr]
  · by_cases herr : i < 0 ∨ (h.data.length : Int) ≤ i
    · rw [Heap.Remove, if_pos (by omega)]
      simp [herr]
    · have hn : 0 < h.data.length := by omega
      rw [Heap.Remove, if_neg (by omega)]
      by_cases hz : i = 0
      · rw [if_pos hz, pop_eq h hn]
        simp [herr]
      · rw [if_neg hz]
        by_cases hlast : h.data.length - 1 ≠ i.toNat
        · rw [if_pos hlast]
          simp [herr]
        · rw [if_neg hlast]
          simp [herr]
  · intro herr
    rw [Heap.Remove, if_pos (by omega)]
  · by_cases herr : i < 0 ∨ (h.data.length : Int) ≤ i
    · rw [Heap.Set, if_pos herr]
      simp [herr]
    · rw [Heap.Set, if_neg herr, Heap.Fix,
        if_neg (by rw [List.length_set]; omega)]
      simp [herr]
  · intro herr
    rw [Heap.Set, if_pos herr]
  · by_cases herr : i < 0 ∨ (h.data.length : Int) ≤ i
    · rw [Heap.Fix, if_pos herr]
      simp [herr]
    · rw [Heap.Fix, if_neg herr]
      simp [herr]
  · intro herr
    rw [Heap.Fix, if_pos herr]

theorem claim_C6_witness :
    (New intLt).Pop.1 = Except.error HeapErr.emptyHeap ∧
    (({ data := [1, 2, 3], less := intLt } : Heap Int).Remove (-1)).2 =
      { data := [1, 2, 3], less := intLt } :=
  ⟨(claim_C6 (New intLt) 0 0).1.mpr rfl,
   (claim_C6 ({ data := [1, 2, 3], less := intLt } : Heap Int) (-1)
     0).2.2.2.2.2.2.2.1 (by omega)⟩

/-- C7 as stated is false: Set does not produce the same element arrangement
as Remove followed by Push.  On the heap [1,2,3] under integer less-than,
Set(1,5) yields [1,5,3] while Remove(1) then Push(5) yields [1,3,5]. -/
theorem claim_C7_counterexample :
    ¬ ((({ data := [1, 2, 3], less := intLt } : Heap Int).Set 1 5).2.data =
      ((({ data := [1, 2, 3], less := intLt } : Heap Int).Remove 1).2.Push
        5).data) := by
  decide

/-- C7 amended: on a heap satisfying the invariant, Set(i, x) at a valid
index produces the same multiset of contents as Remove(i) followed by
Push(x), and both results satisfy the heap invariant; the element
arrangement may however differ between the two. -/
theorem claim_C7_amended (h : Heap α) (i : Int) (x : α) (hswo : SWO h.less)
    (hh : IsHeap h.less h.data) (h0 : 0 ≤ i)
    (hi : i < (h.data.length : Int)) :
    ((h.Set i x).2.data).Perm (((h.Remove i).2.Push x).data) ∧
    IsHeap h.less (h.Set i x).2.data ∧
    IsHeap h.less ((h.Remove i).2.Push x).data := by
  have hk : i.toNat < h.data.length := by omega
  refine ⟨?_, ?_, ?_⟩
  · have h1 : ((h.Set i x).2.data).Perm (h.data.set i.toNat x) := by
      rw [set_data_eq h i x h0 hi]
      exact set_core_perm h.less h.data i.toNat x hk
    have h2 := remove_perm h i h0 hi
    have h3 := push_perm (h.Remove i).2 x
    have h4 : (h.data.set i.toNat x).Perm (x :: (h.Remove i).2.data) := by
      have hA : (x :: nth h.data i.toNat :: (h.Remove i).2.data).Perm
          (x :: h.data) := List.Perm.cons x h2
      have hB := perm_set_cons x h.data i.toNat hk
      have hC : (nth h.data i.toNat :: h.data.set i.toNat x).Perm
          (nth h.data i.toNat :: x :: (h.Remove i).2.data) :=
        hB.trans (hA.symm.trans
          (List.Perm.swap (nth h.data i.toNat) x (h.Remove i).2.data))
      exact hC.cons_inv
    exact h1.trans (h4.trans
      ((List.perm_append_singleton x _).symm.trans h3.symm))
  · rw [set_data_eq h i x h0 hi]
    exact set_core_heap hswo h.data i.toNat x hk hh
  · have hrl := remove_less h i
    have hswo2 : SWO (h.Remove i).2.less := by rw [hrl]; exact hswo
    have hhe : IsHeap (h.Remove i).2.less (h.Remove i).2.data := by
      rw [hrl]; exact remove_heap h i hswo hh h0 hi
    have hp := push_heap (h.Remove i).2 x hswo2 hhe
    rw [hrl] at hp
    exact hp

theorem claim_C7_amended_witness :
    SWO intLt ∧ IsHeap intLt ([1, 2, 3] : List Int) ∧
    ((({ data := [1, 2, 3], less := intLt } : Heap Int).Set 1 5).2.data).Perm
      ((({ data := [1, 2, 3], less := intLt } : Heap Int).Remove
        1).2.Push 5).data :=
  ⟨intLt_swo, by decide,
   (claim_C7_amended { data := [1, 2, 3], less := intLt } 1 5 intLt_swo
     (by decide) (by decide) (by decide)).1⟩

/-- C8 as stated is false: on an arbitrary (invariant-violating) state,
Fix(i) twice can differ from Fix(i) once.  On [10,7,0,5,6] under integer
less-than, Fix(1) once yields [10,5,0,7,6] but twice yields [5,10,0,7,6]. -/
theorem claim_C8_counterexample :
    ¬ ((((({ data := [10, 7, 0, 5, 6], less := intLt } : Heap Int).Fix
        1).2).Fix 1).2.data =
      (({ data := [10, 7, 0, 5, 6], less := intLt } : Heap Int).Fix
        1).2.data) := by
  decide

/-- C8 amended: if the heap satisfies the invariant everywhere except that
the value at valid index i was replaced (the intended use of Fix), then
Fix(i) restores the invariant and a second Fix(i) leaves the heap exactly
unchanged, so Fix(i) twice equals Fix(i) once. -/
theorem claim_C8_amended (h : Heap α) (i : Int) (v : α) (hswo : SWO h.less)
    (hh : IsHeap h.less (h.data.set i.toNat v)) (h0 : 0 ≤ i)
    (hi : i < (h.data.length : Int)) :
    ((h.Fix i).2.Fix i).2 = (h.Fix i).2 := by
  have hk : i.toNat < h.data.length := by omega
  have hfl := fix_less h i
  have hfd := fix_data_eq h i h0 hi
  have hheap : IsHeap (h.Fix i).2.less (h.Fix i).2.data := by
    rw [hfl, hfd]
    exact fixAt_heap hswo h.data i.toNat v hk hh
  apply fix_id_op (h.Fix i).2 i hheap h0
  rw [hfd, fixAt_length]
  exact hi

theorem claim_C8_amended_witness :
    SWO intLt ∧ IsHeap intLt (([1, 9, 2] : List Int).set 1 3) ∧
    ((({ data := [1, 9, 2], less := intLt } : Heap Int).Fix 1).2.Fix 1).2 =
      (({ data := [1, 9, 2], less := intLt } : Heap Int).Fix 1).2 :=
  ⟨intLt_swo, by decide,
   claim_C8_amended { data := [1, 9, 2], less := intLt } 1 3 intLt_swo
     (by decide) (by decide) (by decide)⟩

/-- C9: on a nonempty heap satisfying the invariant, Peek returns the
element at index 0, which is minimal under less, and leaves the entire heap
state exactly unchanged. -/
theorem claim_C9 (h : Heap α) (hswo : SWO h.less) (hh : IsHeap h.less h.data)
    (hn : 0 < h.data.length) :
    (h.Peek).1 = Except.ok (nth h.data 0) ∧ (h.Peek).2 = h ∧
    (∀ q, q < h.data.length →
      h.less (nth h.data q) (nth h.data 0) = false) := by
  refine ⟨?_, peek_state h, root_min hswo h.data hh⟩
  rw [Heap.Peek, if_neg (by omega)]

theorem claim_C9_witness :
    SWO intLt ∧ IsHeap intLt ([0, 2, 1] : List Int) ∧
    (({ data := [0, 2, 1], less := intLt } : Heap Int).Peek).2 =
      { data := [0, 2, 1], less := intLt } :=
  ⟨intLt_swo, by decide,
   (claim_C9 { data := [0, 2, 1], less := intLt } intLt_swo (by decide)
     (by decide)).2.1⟩

/-- C10: for every comparison function, with no ordering assumptions at all,
the sift loops terminate: sift-down completes within `length - i` steps
because its index strictly increases and stays in range, and sift-up
completes within `i` steps because its index strictly decreases; running the
loops with any fuel at least these bounds gives the same result as the
operations use. -/
theorem claim_C10 (less : α → α → Bool) (d : List α) (i fuel : Nat) :
    (d.length ≤ i + fuel → downGas less fuel d i = down less d i) ∧
    (i ≤ fuel → upGas less fuel d i = up less d i) := by
  constructor
  · intro hf
    exact downGas_congr less fuel d.length d i hf (by omega)
  · intro hf
    exact upGas_congr less fuel i d i hf (Nat.le_refl i)

theorem claim_C10_witness :
    downGas intLt 5 [3, 2, 1] 0 = down intLt [3, 2, 1] 0 ∧
    upGas intLt 4 [3, 2, 1] 2 = up intLt [3, 2, 1] 2 :=
  ⟨(claim_C10 intLt [3, 2, 1] 0 5).1 (by decide),
   (claim_C10 intLt [3, 2, 1] 2 4).2 (by decide)⟩

end HeapSpec
